import Mathlib

/-!
Verification of the mindflow mind-map core (tree model, layout, navigation,
reparenting, visibility) against its natural-language specification.

The Python source keeps a dictionary `MindMap.nodes` mapping ids to mutable
`Node` objects carrying `x`, `y`, a `parent` back-reference, an ordered
`children` list and an `is_collapsed` flag.  We embed this as a flat store:
a list of records in dictionary insertion order, with parent and children
links by id.  Coordinates are modelled as exact numbers (`ℚ` for the
structural/layout operations, `ℝ` for the navigation heuristic, which uses a
square root); the source computes with Python floats, whose rounding is out
of scope here.  Loops that climb the mutable `parent` chain are embedded
with explicit fuel `store.length`, which is enough for every well-formed
(acyclic, id-unique, parent-closed) store.
-/

namespace Mindflow

/-- One mind-map node: the model of the Python `Node` object.  The canvas
item ids and fonts of the source are pure drawing state and are omitted;
`parent` and `children` carry node ids (dictionary keys). -/
structure NodeData (α : Type) where
  id : Nat
  x : α
  y : α
  parent : Option Nat
  collapsed : Bool
  children : List Nat
  text : String
  deriving DecidableEq, Repr

/-- The model of `MindMap.nodes`: insertion-ordered id → node dictionary. -/
abbrev Store (α : Type) := List (NodeData α)

variable {α : Type}

/-- Dictionary lookup by id (`self.nodes[...]` / a Python object reference). -/
def findNode (s : Store α) (i : Nat) : Option (NodeData α) :=
  s.find? (fun n => n.id = i)

/-- In-place mutation of the node with id `i` (Python objects are mutated
through references; ids are unique in well-formed stores). -/
def updateNode (s : Store α) (i : Nat) (f : NodeData α → NodeData α) : Store α :=
  s.map (fun n => if n.id = i then f n else n)

/-- `node.parent` dereferenced to the parent's record. -/
def parentNode (s : Store α) (n : NodeData α) : Option (NodeData α) :=
  n.parent.bind (findNode s)

/-- The chain of strict ancestors of `n`, by repeated `.parent` steps,
with explicit fuel (the Python `while current.parent:` loop). -/
def ancChain : Nat → Store α → NodeData α → List (NodeData α)
  | 0, _, _ => []
  | fuel + 1, s, n =>
    match parentNode s n with
    | none => []
    | some p => p :: ancChain fuel s p

/-- Does the `.parent` walk starting at `n` reach a parentless node within
`fuel` steps?  True for every node of an acyclic, parent-closed store when
`fuel = store.length`. -/
def reachesTop : Nat → Store α → NodeData α → Bool
  | 0, _, _ => false
  | fuel + 1, s, n =>
    match parentNode s n with
    | none => true
    | some p => reachesTop fuel s p

/-- Well-formedness of a store: ids are unique, every parent reference
resolves, and every ancestor chain terminates (no parent cycles). -/
def wfStore (s : Store α) : Bool :=
  (s.map (fun n => n.id)).Nodup
    && s.all (fun n => match n.parent with
        | none => true
        | some pid => (findNode s pid).isSome)
    && s.all (fun n => reachesTop s.length s n)

/-- `a` is a strict ancestor of `n` (the spec's descendant relation, read
upwards): reachable from `n` by one or more `.parent` steps. -/
inductive Descends (s : Store α) : NodeData α → NodeData α → Prop
  | parent {n p : NodeData α} : parentNode s n = some p → Descends s n p
  | step {n p a : NodeData α} : parentNode s n = some p → Descends s p a → Descends s n a

theorem mem_of_findNode_eq_some {s : Store α} {i : Nat} {n : NodeData α}
    (h : findNode s i = some n) : n ∈ s :=
  List.mem_of_find?_eq_some h

theorem id_of_findNode_eq_some {s : Store α} {i : Nat} {n : NodeData α}
    (h : findNode s i = some n) : n.id = i := by
  have := List.find?_some h
  simpa using this

theorem ancChain_subset {s : Store α} :
    ∀ (fuel : Nat) (n : NodeData α), ∀ a ∈ ancChain fuel s n, a ∈ s := by
  intro fuel
  induction fuel with
  | zero => intro n a ha; simp [ancChain] at ha
  | succ f ih =>
    intro n a ha
    unfold ancChain at ha
    cases hp : parentNode s n with
    | none => rw [hp] at ha; simp at ha
    | some p =>
      rw [hp] at ha
      rcases List.mem_cons.mp ha with h | h
      · subst h
        cases hpar : n.parent with
        | none => rw [parentNode, hpar] at hp; cases hp
        | some pid =>
          rw [parentNode, hpar] at hp
          exact mem_of_findNode_eq_some (by simpa using hp)
      · exact ih p a h

/-- Completeness of the fuelled ancestor chain: once the walk terminates
within `fuel`, membership in the chain is exactly the ancestor relation. -/
theorem descends_iff_mem_ancChain {s : Store α} :
    ∀ (fuel : Nat) (n : NodeData α), reachesTop fuel s n = true →
      ∀ a, (Descends s n a ↔ a ∈ ancChain fuel s n) := by
  intro fuel
  induction fuel with
  | zero => intro n h; simp [reachesTop] at h
  | succ f ih =>
    intro n h a
    unfold reachesTop at h
    unfold ancChain
    cases hp : parentNode s n with
    | none =>
      rw [hp] at h
      constructor
      · intro hd
        cases hd with
        | parent h1 => rw [hp] at h1; cases h1
        | step h1 _ => rw [hp] at h1; cases h1
      · intro hm; simp at hm
    | some p =>
      rw [hp] at h
      constructor
      · intro hd
        cases hd with
        | parent h1 =>
          rw [hp] at h1; cases h1
          exact List.mem_cons_self _ _
        | step h1 hd' =>
          rw [hp] at h1; cases h1
          exact List.mem_cons_of_mem _ ((ih p h a).mp hd')
      · intro hm
        rcases List.mem_cons.mp hm with h1 | h1
        · subst h1; exact Descends.parent hp
        · exact Descends.step hp ((ih p h a).mpr h1)

theorem wf_nodup_ids {s : Store α} (h : wfStore s = true) :
    (s.map (fun n => n.id)).Nodup := by
  unfold wfStore at h
  simp only [Bool.and_eq_true] at h
  simpa using h.1.1

theorem wf_reachesTop {s : Store α} (h : wfStore s = true) :
    ∀ n ∈ s, reachesTop s.length s n = true := by
  unfold wfStore at h
  simp only [Bool.and_eq_true, List.all_eq_true] at h
  intro n hn
  exact h.2 n hn

/-- With unique ids, two members of the store with the same id coincide. -/
theorem eq_of_mem_of_id_eq {s : Store α}
    (hnd : (s.map (fun n => n.id)).Nodup) :
    ∀ {a b : NodeData α}, a ∈ s → b ∈ s → a.id = b.id → a = b := by
  induction s with
  | nil => intro a b ha; simp at ha
  | cons x xs ih =>
    intro a b ha hb hid
    simp only [List.map_cons, List.nodup_cons] at hnd
    rcases List.mem_cons.mp ha with h1 | h1 <;> rcases List.mem_cons.mp hb with h2 | h2
    · subst h1; subst h2; rfl
    · subst h1
      exact absurd (hid ▸ List.mem_map_of_mem (fun n => n.id) h2) hnd.1
    · subst h2
      exact absurd (hid ▸ List.mem_map_of_mem (fun n => n.id) h1) hnd.1
    · exact ih hnd.2 h1 h2 hid

/-! ### Stable sorting

Python's `sorted` / `list.sort` are stable.  We embed them as an insertion
sort that inserts each element before the first strictly larger one, which
yields the same (unique) stable result for a total preorder key. -/

/-- Insert `a` before the first element `b` with `le a b` (for a key
comparison `le x y = key x ≤ key y` this places `a` after every strictly
smaller element and before equal ones coming later — stability). -/
def insOrd (le : α → α → Bool) (a : α) : List α → List α
  | [] => [a]
  | b :: l => if le a b then a :: b :: l else b :: insOrd le a l

/-- Stable insertion sort (model of Python's stable `sorted`). -/
def isort (le : α → α → Bool) : List α → List α
  | [] => []
  | a :: l => insOrd le a (isort le l)

/-- The visibility walk of the source: hide `n` if some strict ancestor is
collapsed (fuelled `.parent` loop). -/
def shouldHide : Nat → Store α → NodeData α → Bool
  | 0, _, _ => false
  | fuel + 1, s, n =>
    match parentNode s n with
    | none => false
    | some p => if p.collapsed then true else shouldHide fuel s p

/-- `isVisible node` of the spec: the negation of the hide walk, with fuel
`store.length`. -/
def is_visible (s : Store α) (n : NodeData α) : Bool :=
  !shouldHide s.length s n

theorem shouldHide_iff_exists {s : Store α} :
    ∀ (fuel : Nat) (n : NodeData α),
      (shouldHide fuel s n = true ↔ ∃ a ∈ ancChain fuel s n, a.collapsed = true) := by
  intro fuel
  induction fuel with
  | zero => intro n; simp [shouldHide, ancChain]
  | succ f ih =>
    intro n
    unfold shouldHide ancChain
    cases hp : parentNode s n with
    | none => simp
    | some p =>
      by_cases hc : p.collapsed = true
      · simp [hc]
      · simp only [if_neg hc, ih p, List.mem_cons]
        constructor
        · rintro ⟨a, ha, hac⟩; exact ⟨a, Or.inr ha, hac⟩
        · rintro ⟨a, ha | ha, hac⟩
          · subst ha; exact absurd hac hc
          · exact ⟨a, ha, hac⟩

/-- C8: for every node of a well-formed store, `isVisible` is false exactly
when some strict ancestor is collapsed. -/
theorem claim_C8 (s : Store α) (n : NodeData α)
    (hwf : wfStore s = true) (hn : n ∈ s) :
    is_visible s n = false ↔ ∃ a, Descends s n a ∧ a.collapsed = true := by
  have hreach := wf_reachesTop hwf n hn
  have hchain := descends_iff_mem_ancChain (s := s) s.length n hreach
  rw [is_visible, Bool.not_eq_false', shouldHide_iff_exists]
  constructor
  · rintro ⟨a, ha, hac⟩; exact ⟨a, (hchain a).mpr ha, hac⟩
  · rintro ⟨a, ha, hac⟩; exact ⟨a, (hchain a).mp ha, hac⟩

/-- Concrete store for the C8 witness: a collapsed root `0`, its child `1`
and grandchild `2`. -/
def c8Store : Store ℚ :=
  [⟨0, 0, 0, none, true, [1], "root"⟩,
   ⟨1, 150, 0, some 0, false, [2], "a"⟩,
   ⟨2, 300, 0, some 1, false, [], "b"⟩]

theorem claim_C8_witness :
    is_visible c8Store ⟨2, 300, 0, some 1, false, [], "b"⟩ = false ↔
      ∃ a, Descends c8Store ⟨2, 300, 0, some 1, false, [], "b"⟩ a ∧ a.collapsed = true :=
  claim_C8 c8Store _ (by decide) (by decide)

/-! ### Reparent validation (`MindMap._can_be_parent`) -/

/-- The cycle-check walk of `_can_be_parent`: `current = potential_parent;
while current: if current == dragged_node: return False; current =
current.parent` (fuelled). -/
def walkHits : Nat → Store α → Option (NodeData α) → Nat → Bool
  | 0, _, _, _ => false
  | _ + 1, _, none, _ => false
  | fuel + 1, s, some c, tid =>
    if c.id = tid then true else walkHits fuel s (parentNode s c) tid

/-- `MindMap._can_be_parent(potential_parent, dragged_node)`.  The source
dereferences `dragged_node.parent.parent`, so it presumes the dragged node
is not the root (`_start_drag` refuses to drag the root); a root dragged
node is mapped to `false` here in place of the `AttributeError` the source
would raise. -/
def can_be_parent (s : Store α) (pp dn : NodeData α) : Bool :=
  if pp.id = dn.id then false
  else if dn.parent = some pp.id then false
  else
    match parentNode s dn with
    | none => false
    | some dp =>
      if pp.parent = none && dp.parent = none then true
      else !walkHits (s.length + 1) s (some pp) dn.id

/-- A root-level child: its parent exists and is the (parentless) root. -/
def rootChildProp (s : Store α) (n : NodeData α) : Prop :=
  ∃ p, parentNode s n = some p ∧ p.parent = none

theorem walkHits_iff {s : Store α} (tid : Nat) :
    ∀ (fuel : Nat) (c : NodeData α), reachesTop fuel s c = true →
      (walkHits (fuel + 1) s (some c) tid = true ↔
        c.id = tid ∨ ∃ a ∈ ancChain fuel s c, a.id = tid) := by
  intro fuel
  induction fuel with
  | zero => intro c h; simp [reachesTop] at h
  | succ f ih =>
    intro c h
    unfold reachesTop at h
    unfold walkHits
    by_cases hc : c.id = tid
    · simp [hc]
    · rw [if_neg hc]
      cases hp : parentNode s c with
      | none =>
        unfold ancChain
        rw [hp]
        simp [walkHits, hc]
      | some p =>
        rw [hp] at h
        have h' : reachesTop f s p = true := h
        unfold ancChain
        rw [hp]
        rw [ih p h']
        simp only [List.mem_cons, hc, false_or]
        constructor
        · rintro (h1 | ⟨a, ha, h2⟩)
          · exact ⟨p, Or.inl rfl, h1⟩
          · exact ⟨a, Or.inr ha, h2⟩
        · rintro ⟨a, ha | ha, h2⟩
          · subst ha; exact Or.inl h2
          · exact Or.inr ⟨a, ha, h2⟩

/-- A root-level child never has the whole subtree of a non-root node above
it: its only strict ancestor is the root. -/
theorem rootChild_not_descends {s : Store α} {pp dn dp : NodeData α}
    (hwf : wfStore s = true) (hpp : pp ∈ s)
    (hrc : rootChildProp s pp) (hdn : parentNode s dn = some dp) :
    ¬ Descends s pp dn := by
  intro hdesc
  obtain ⟨r, hr, hrnone⟩ := hrc
  have hreach := wf_reachesTop hwf pp hpp
  have hmem := (descends_iff_mem_ancChain (s := s) s.length pp hreach dn).mp hdesc
  cases hlen : s.length with
  | zero =>
    rw [hlen] at hmem
    simp [ancChain] at hmem
  | succ f =>
    rw [hlen] at hmem
    unfold ancChain at hmem
    rw [hr] at hmem
    have hchain_r : ancChain f s r = [] := by
      cases f with
      | zero => rfl
      | succ g =>
        unfold ancChain
        rw [parentNode, hrnone]
        rfl
    have hmem' : dn ∈ r :: ancChain f s r := hmem
    rw [hchain_r] at hmem'
    rcases List.mem_cons.mp hmem' with h1 | h1
    · subst h1
      rw [parentNode, hrnone] at hdn
      cases hdn
    · simp at h1

/-- C1: for a well-formed store and a non-root dragged node,
`_can_be_parent(candidate, dragged)` returns true exactly as the spec's
case analysis dictates: not the dragged node itself, not its current
parent, and either both are root-level children or the candidate is not a
descendant of the dragged node. -/
theorem claim_C1 (s : Store α) (pp dn dp : NodeData α)
    (hwf : wfStore s = true) (hpp : pp ∈ s) (hdn : dn ∈ s)
    (hdp : parentNode s dn = some dp) :
    can_be_parent s pp dn = true ↔
      pp.id ≠ dn.id ∧ dn.parent ≠ some pp.id ∧
        ((rootChildProp s pp ∧ rootChildProp s dn) ∨ ¬ Descends s pp dn) := by
  unfold can_be_parent
  by_cases h1 : pp.id = dn.id
  · simp [h1]
  · rw [if_neg h1]
    by_cases h2 : dn.parent = some pp.id
    · simp [h2]
    · rw [if_neg h2, hdp]
      change (if pp.parent = none && dp.parent = none then true
        else !walkHits (s.length + 1) s (some pp) dn.id) = true ↔ _
      by_cases h3 : (pp.parent = none && dp.parent = none) = true
      · rw [if_pos h3]
        simp only [Bool.and_eq_true, decide_eq_true_eq] at h3
        have hnodesc : ¬ Descends s pp dn := by
          intro hd
          cases hd with
          | parent hp => rw [parentNode, h3.1] at hp; cases hp
          | step hp _ => rw [parentNode, h3.1] at hp; cases hp
        simp [h1, h2, hnodesc]
      · rw [if_neg h3]
        have hreach := wf_reachesTop hwf pp hpp
        have hcases : s.length = s.length := rfl
        have hwalk := walkHits_iff (s := s) dn.id s.length pp hreach
        have hdesc_iff : walkHits (s.length + 1) s (some pp) dn.id = true ↔
            Descends s pp dn := by
          rw [hwalk]
          constructor
          · rintro (h4 | ⟨a, ha, h5⟩)
            · exact absurd h4 h1
            · have ha_s : a ∈ s := ancChain_subset s.length pp a ha
              have : a = dn := eq_of_mem_of_id_eq (wf_nodup_ids hwf) ha_s hdn h5
              subst this
              exact (descends_iff_mem_ancChain (s := s) s.length pp hreach a).mpr ha
          · intro hd
            have := (descends_iff_mem_ancChain (s := s) s.length pp hreach dn).mp hd
            exact Or.inr ⟨dn, this, rfl⟩
        constructor
        · intro hlhs
          have hnw : walkHits (s.length + 1) s (some pp) dn.id = false := by
            cases hw : walkHits (s.length + 1) s (some pp) dn.id
            · rfl
            · rw [hw] at hlhs; cases hlhs
          refine ⟨h1, h2, Or.inr ?_⟩
          intro hd
          rw [← hdesc_iff] at hd
          rw [hd] at hnw
          cases hnw
        · rintro ⟨-, -, hor⟩
          have hnodesc : ¬ Descends s pp dn := by
            rcases hor with ⟨hrcp, _⟩ | hnd
            · exact rootChild_not_descends hwf hpp hrcp hdp
            · exact hnd
          have : walkHits (s.length + 1) s (some pp) dn.id = false := by
            cases hw : walkHits (s.length + 1) s (some pp) dn.id
            · rfl
            · exact absurd (hdesc_iff.mp hw) hnodesc
          rw [this]
          rfl

/-- Concrete store for the C1 witness: root `0`, a left branch `1` with
child `2` (the dragged node), and a right branch `3` (the candidate). -/
def c1Store : Store ℚ :=
  [⟨0, 400, 300, none, false, [1, 3], "root"⟩,
   ⟨1, 250, 300, some 0, false, [2], "a"⟩,
   ⟨2, 100, 300, some 1, false, [], "b"⟩,
   ⟨3, 550, 300, some 0, false, [], "c"⟩]

theorem claim_C1_witness :
    can_be_parent c1Store ⟨3, 550, 300, some 0, false, [], "c"⟩
        ⟨2, 100, 300, some 1, false, [], "b"⟩ = true ↔
      (3 : Nat) ≠ 2 ∧ (some 1 : Option Nat) ≠ some 3 ∧
        ((rootChildProp c1Store ⟨3, 550, 300, some 0, false, [], "c"⟩ ∧
            rootChildProp c1Store ⟨2, 100, 300, some 1, false, [], "b"⟩) ∨
          ¬ Descends c1Store ⟨3, 550, 300, some 0, false, [], "c"⟩
              ⟨2, 100, 300, some 1, false, [], "b"⟩) :=
  claim_C1 c1Store _ _ ⟨1, 250, 300, some 0, false, [2], "a"⟩
    (by decide) (by decide) (by decide) (by decide)

/-! ### Subtree recursion (`_calculate_subtree_space`, `_flip_node_subtree`)

These two source functions recurse structurally over a node's children, so
we embed them over an inductive rose tree (a node's position plus the
ordered forest of its child subtrees). -/

mutual
/-- A node with its coordinates and the ordered forest of child subtrees. -/
inductive PTree : Type
  | node (x y : ℚ) (kids : PForest)
/-- An ordered list of child subtrees. -/
inductive PForest : Type
  | nil
  | cons (t : PTree) (ts : PForest)
end

/-- `MIN_NODE_HEIGHT` of `_calculate_subtree_space`. -/
def MIN_NODE_HEIGHT : ℚ := 40

/-- `SIBLING_PADDING` of `_calculate_subtree_space`. -/
def SIBLING_PADDING : ℚ := 20

mutual
/-- `MindMap._calculate_subtree_space`: a childless node claims a fixed
slot; otherwise the maximum of that slot and the children's total. -/
def calculate_subtree_space : PTree → ℚ
  | .node _ _ .nil => MIN_NODE_HEIGHT + SIBLING_PADDING
  | .node _ _ (.cons t ts) =>
      max (MIN_NODE_HEIGHT + SIBLING_PADDING) (forestSpace (.cons t ts))
/-- The `sum(... for child in node.children)` of the source. -/
def forestSpace : PForest → ℚ
  | .nil => 0
  | .cons t ts => calculate_subtree_space t + forestSpace ts
end

/-- The children forest of a tree node. -/
def PTree.kids : PTree → PForest
  | .node _ _ k => k

/-- C6: subtree space is exactly the fixed slot for a leaf, and for an
internal node the max of the slot and the children's total — hence at
least the children's total. -/
theorem claim_C6 (t : PTree) :
    (t.kids = .nil → calculate_subtree_space t = MIN_NODE_HEIGHT + SIBLING_PADDING) ∧
    (t.kids ≠ .nil →
      calculate_subtree_space t =
          max (MIN_NODE_HEIGHT + SIBLING_PADDING) (forestSpace t.kids) ∧
        forestSpace t.kids ≤ calculate_subtree_space t) := by
  obtain ⟨x, y, k⟩ := t
  cases k with
  | nil =>
    refine ⟨fun _ => rfl, fun h => absurd rfl h⟩
  | cons c cs =>
    refine ⟨fun h => PForest.noConfusion h, fun _ => ⟨rfl, ?_⟩⟩
    exact le_max_right _ _

theorem claim_C6_witness :
    (PTree.node 0 0 .nil).kids = .nil ∧
      calculate_subtree_space (.node 0 0 .nil) = MIN_NODE_HEIGHT + SIBLING_PADDING ∧
    (PTree.node 0 0 (.cons (.node 150 0 .nil) .nil)).kids ≠ .nil ∧
      calculate_subtree_space (.node 0 0 (.cons (.node 150 0 .nil) .nil)) =
          max (MIN_NODE_HEIGHT + SIBLING_PADDING)
            (forestSpace (PTree.node 0 0 (.cons (.node 150 0 .nil) .nil)).kids) := by
  refine ⟨rfl, (claim_C6 _).1 rfl, fun h => PForest.noConfusion h, ?_⟩
  exact ((claim_C6 (.node 0 0 (.cons (.node 150 0 .nil) .nil))).2
    (fun h => PForest.noConfusion h)).1

mutual
/-- The inner `flip_node_position(node, parent_x)` of
`MindMap._flip_node_subtree`: mirror the node about `parent_x`, then
recurse into the children about the node's *new* x. -/
def flip_node_position : PTree → ℚ → PTree
  | .node x y kids, px => .node (px - (x - px)) y (flipForest kids (px - (x - px)))
def flipForest : PForest → ℚ → PForest
  | .nil, _ => .nil
  | .cons t ts, px => .cons (flip_node_position t px) (flipForest ts px)
end

/-- `MindMap._flip_node_subtree(node)` starts the recursion at the dragged
node about its (new) parent's x. -/
def flip_node_subtree (t : PTree) (parentX : ℚ) : PTree :=
  flip_node_position t parentX

mutual
/-- Position of the node reached by a path of child indices. -/
def posAt : PTree → List Nat → Option (ℚ × ℚ)
  | .node x y _, [] => some (x, y)
  | .node _ _ kids, i :: p => forestPosAt kids i p
/-- Position lookup inside a forest: pick the `i`-th subtree. -/
def forestPosAt : PForest → Nat → List Nat → Option (ℚ × ℚ)
  | .nil, _, _ => none
  | .cons t _, 0, p => posAt t p
  | .cons _ ts, i + 1, p => forestPosAt ts i p
end

mutual
/-- The x-coordinates of the nodes from the root down to (and including)
the node at the given path. -/
def xsAlong : PTree → List Nat → Option (List ℚ)
  | .node x _ _, [] => some [x]
  | .node x _ kids, i :: p => (forestXsAlong kids i p).map (fun l => x :: l)
/-- `xsAlong` inside a forest. -/
def forestXsAlong : PForest → Nat → List Nat → Option (List ℚ)
  | .nil, _, _ => none
  | .cons t _, 0, p => xsAlong t p
  | .cons _ ts, i + 1, p => forestXsAlong ts i p
end

/-- The mirror chain actually implemented by `_flip_node_subtree`: starting
from the new parent's x, each node on the path is mirrored about its
parent's *already flipped* x. -/
def mirrorChain (px : ℚ) (xs : List ℚ) : ℚ :=
  xs.foldl (fun p x => p - (x - p)) px

/-- C2 (amended): flipping never changes y-coordinates, and the x of every
node of the flipped subtree is the mirror chain of the x-coordinates along
its path — the dragged node is mirrored about the new parent's x, but each
deeper node is mirrored about its parent's new x computed from its own old
absolute x, which is not a rigid mirror of the whole subtree about the new
parent's x. -/
theorem claim_C2_amended (t : PTree) (px : ℚ) (path : List Nat) :
    (posAt (flip_node_subtree t px) path).map Prod.snd =
      (posAt t path).map Prod.snd ∧
    (posAt (flip_node_subtree t px) path).map Prod.fst =
      (xsAlong t path).map (mirrorChain px) := by
  unfold flip_node_subtree
  induction path generalizing t px with
  | nil =>
    obtain ⟨x, y, k⟩ := t
    simp [flip_node_position, posAt, xsAlong, mirrorChain]
  | cons i p ih =>
    obtain ⟨x, y, k⟩ := t
    simp only [flip_node_position, posAt, xsAlong]
    induction i generalizing k with
    | zero =>
      cases k with
      | nil => simp [flipForest, forestPosAt, forestXsAlong]
      | cons c cs =>
        simp only [flipForest, forestPosAt, forestXsAlong]
        constructor
        · exact (ih c (px - (x - px))).1
        · rcases hxs : xsAlong c p with _ | xs
          · have h3 := (ih c (px - (x - px))).2
            rw [hxs] at h3
            simpa using h3
          · have h3 := (ih c (px - (x - px))).2
            rw [hxs] at h3
            simp only [Option.map_some'] at h3 ⊢
            rw [h3]
            simp [mirrorChain]
    | succ j ihj =>
      cases k with
      | nil => simp [flipForest, forestPosAt, forestXsAlong]
      | cons c cs =>
        simp only [flipForest, forestPosAt, forestXsAlong]
        exact ihj cs

/-- C2 counterexample: with the new parent at x = 0, a dragged node at
x = 10 and its child at x = 15, the flip puts the child at x = −35, not at
the rigid mirror value 0 − (15 − 0) = −15 claimed by the spec. -/
theorem claim_C2_counterexample :
    posAt (flip_node_subtree (.node 10 0 (.cons (.node 15 0 .nil) .nil)) 0) [0] =
        some (-35, 0) ∧
      (0 : ℚ) - (15 - 0) ≠ -35 := by
  constructor
  · simp only [flip_node_subtree, flip_node_position, flipForest, posAt, forestPosAt]
    norm_num
  · norm_num

/-! ### Layout and sibling reordering on the flat store
(`_move_node_and_subtree`, `_calculate_subtree_space`, `_reposition_siblings`,
`move_node_up`, `move_node_down`) -/

section Ops

variable {α : Type} [LinearOrderedField α]

/-- `MindMap._move_node_and_subtree`: shift a node and, recursively, all of
its children by the same delta (fuelled recursion over the children
relation). -/
def moveSubtreeFuel : Nat → Store α → Nat → α → α → Store α
  | 0, s, _, _, _ => s
  | fuel + 1, s, nid, dx, dy =>
    let s1 := updateNode s nid (fun n => { n with x := n.x + dx, y := n.y + dy })
    ((findNode s nid).elim [] (fun n => n.children)).foldl
      (fun st c => moveSubtreeFuel fuel st c dx dy) s1

/-- `_move_node_and_subtree` with enough fuel for any store-deep subtree. -/
def move_node_and_subtree (s : Store α) (nid : Nat) (dx dy : α) : Store α :=
  moveSubtreeFuel (s.length + 1) s nid dx dy

/-- `MindMap._calculate_subtree_space` read off the flat store (fuelled
children recursion); `MIN_NODE_HEIGHT = 40`, `SIBLING_PADDING = 20`. -/
def subtreeSpaceFuel : Nat → Store α → NodeData α → α
  | 0, _, _ => 40 + 20
  | fuel + 1, s, n =>
    if n.children = [] then 40 + 20
    else
      max (40 + 20)
        (((n.children.filterMap (findNode s)).map (subtreeSpaceFuel fuel s)).sum)

/-- `_calculate_subtree_space` with enough fuel for any store-deep subtree. -/
def store_subtree_space (s : Store α) (n : NodeData α) : α :=
  subtreeSpaceFuel s.length s n

/-- `MindMap._reposition_siblings`: sort the children by current y (stable),
precompute each child's subtree space, then place each child's subtree at
the centre of its allocated band below `parent.y − total/2`, skipping moves
with `|dy| ≤ 1`. -/
def reposition_siblings (s : Store α) (pid : Nat) : Store α :=
  (findNode s pid).elim s (fun p =>
    if p.children = [] then s
    else
      let childNodes := p.children.filterMap (findNode s)
      let sorted := isort (fun a b => decide (a.y ≤ b.y)) childNodes
      let spaces := sorted.map (fun c => store_subtree_space s c)
      let start := p.y - spaces.sum / 2
      ((sorted.zip spaces).foldl
        (fun (acc : Store α × α) cp =>
          let target := acc.2 + cp.2 / 2
          let cy := (findNode acc.1 cp.1.id).elim cp.1.y (fun m => m.y)
          let dy := target - cy
          let st := if 1 < |dy| then move_node_and_subtree acc.1 cp.1.id 0 dy else acc.1
          (st, acc.2 + cp.2))
        (s, start)).1)

/-- `MindMap.move_node_up`: the source sorts the siblings into a *fresh*
list (`sorted(...)` returns a copy), swaps inside that copy, and then only
repositions; the swap never reaches `parent.children`.  The model keeps the
branch structure (index 0 returns without repositioning) and omits the dead
local swap. -/
def move_node_up (s : Store α) (activeId : Nat) : Store α :=
  (findNode s activeId).elim s (fun a =>
    a.parent.elim s (fun pid =>
      (findNode s pid).elim s (fun p =>
        let siblings :=
          isort (fun u v => decide (u.y ≤ v.y)) (p.children.filterMap (findNode s))
        let i := siblings.findIdx (fun n => n.id = activeId)
        if 0 < i then reposition_siblings s pid else s)))

/-- `MindMap.move_node_down`: mirror image of `move_node_up` (swap in the
same dead local copy, reposition only when not already last). -/
def move_node_down (s : Store α) (activeId : Nat) : Store α :=
  (findNode s activeId).elim s (fun a =>
    a.parent.elim s (fun pid =>
      (findNode s pid).elim s (fun p =>
        let siblings :=
          isort (fun u v => decide (u.y ≤ v.y)) (p.children.filterMap (findNode s))
        let i := siblings.findIdx (fun n => n.id = activeId)
        if i + 1 < siblings.length then reposition_siblings s pid else s)))

/-- The structural part of a store: ids with their children lists. -/
def childrenShape (s : Store α) : List (Nat × List Nat) :=
  s.map (fun n => (n.id, n.children))

omit [LinearOrderedField α] in
theorem childrenShape_updateNode_pos (s : Store α) (i : Nat)
    (f : NodeData α → NodeData α)
    (hf : ∀ n, (f n).id = n.id ∧ (f n).children = n.children) :
    childrenShape (updateNode s i f) = childrenShape s := by
  unfold childrenShape updateNode
  rw [List.map_map]
  apply List.map_congr_left
  intro n _
  by_cases h : n.id = i
  · simp only [Function.comp, if_pos h, (hf n).1, (hf n).2]
  · simp only [Function.comp, if_neg h]

theorem childrenShape_moveSubtreeFuel :
    ∀ (fuel : Nat) (s : Store α) (nid : Nat) (dx dy : α),
      childrenShape (moveSubtreeFuel fuel s nid dx dy) = childrenShape s := by
  intro fuel
  induction fuel with
  | zero => intro s nid dx dy; rfl
  | succ f ih =>
    intro s nid dx dy
    unfold moveSubtreeFuel
    generalize ((findNode s nid).elim [] (fun n => n.children)) = cs
    have hbase :
        childrenShape (updateNode s nid
          (fun n => { n with x := n.x + dx, y := n.y + dy })) = childrenShape s :=
      childrenShape_updateNode_pos _ _ _ (fun n => ⟨rfl, rfl⟩)
    generalize hU : updateNode s nid (fun n => { n with x := n.x + dx, y := n.y + dy }) = u
    rw [hU] at hbase
    clear hU
    induction cs generalizing u with
    | nil => simpa using hbase
    | cons c cs ihc =>
      simp only [List.foldl_cons]
      exact ihc _ ((ih u c dx dy).trans hbase)

theorem childrenShape_move_node_and_subtree (s : Store α) (nid : Nat) (dx dy : α) :
    childrenShape (move_node_and_subtree s nid dx dy) = childrenShape s :=
  childrenShape_moveSubtreeFuel _ s nid dx dy

theorem childrenShape_reposition (s : Store α) (pid : Nat) :
    childrenShape (reposition_siblings s pid) = childrenShape s := by
  unfold reposition_siblings
  cases hp : findNode s pid with
  | none => rfl
  | some p =>
    simp only [Option.elim_some]
    by_cases hc : p.children = []
    · simp [hc]
    · rw [if_neg hc]
      generalize (isort (fun a b => decide (a.y ≤ b.y))
        (p.children.filterMap (findNode s))).zip
          ((isort (fun a b => decide (a.y ≤ b.y))
            (p.children.filterMap (findNode s))).map
              (fun c => store_subtree_space s c)) = pairs
      generalize hstart : p.y - _ / 2 = start
      clear hstart
      suffices h : ∀ (l : List (NodeData α × α)) (acc : Store α × α),
          childrenShape acc.1 = childrenShape s →
          childrenShape ((l.foldl
            (fun (acc : Store α × α) cp =>
              let target := acc.2 + cp.2 / 2
              let cy := (findNode acc.1 cp.1.id).elim cp.1.y (fun m => m.y)
              let dy := target - cy
              let st := if 1 < |dy| then move_node_and_subtree acc.1 cp.1.id 0 dy else acc.1
              (st, acc.2 + cp.2)) acc)).1 = childrenShape s by
        exact h pairs (s, start) rfl
      intro l
      induction l with
      | nil => intro acc hacc; exact hacc
      | cons cp l ihl =>
        intro acc hacc
        simp only [List.foldl_cons]
        apply ihl
        by_cases hdy : 1 < |acc.2 + cp.2 / 2 -
            ((findNode acc.1 cp.1.id).elim cp.1.y (fun m => m.y))|
        · simpa [hdy] using
            (childrenShape_move_node_and_subtree acc.1 cp.1.id 0 _).trans hacc
        · simpa [hdy] using hacc

/-- Concrete store for C4: parent `0` with children `[1, 2]`, already laid
out at their band centres. -/
def c4Store : Store ℚ :=
  [⟨0, 0, 0, none, false, [1, 2], "root"⟩,
   ⟨1, 150, -30, some 0, false, [], "a"⟩,
   ⟨2, 150, 30, some 0, false, [], "b"⟩]

/-- C4 (code bug): `move_node_up`/`move_node_down` never change any
children list — the swap happens in the throwaway list `sorted(...)`
returns — and on a store where the claim demands an exchange of siblings
the operations return the store completely unchanged. -/
theorem claim_C4 :
    (∀ (s : Store ℚ) (i : Nat), childrenShape (move_node_up s i) = childrenShape s) ∧
    (∀ (s : Store ℚ) (i : Nat), childrenShape (move_node_down s i) = childrenShape s) ∧
    move_node_up c4Store 2 = c4Store ∧
    move_node_down c4Store 1 = c4Store := by
  refine ⟨?_, ?_, ?_, ?_⟩
  · intro s i
    unfold move_node_up
    cases hfa : findNode s i with
    | none => rfl
    | some a =>
      simp only [Option.elim_some]
      cases hpar : a.parent with
      | none => rfl
      | some pid =>
        simp only [Option.elim_some]
        cases hfp : findNode s pid with
        | none => rfl
        | some p =>
          simp only [Option.elim_some]
          split
          · exact childrenShape_reposition s pid
          · rfl
  · intro s i
    unfold move_node_down
    cases hfa : findNode s i with
    | none => rfl
    | some a =>
      simp only [Option.elim_some]
      cases hpar : a.parent with
      | none => rfl
      | some pid =>
        simp only [Option.elim_some]
        cases hfp : findNode s pid with
        | none => rfl
        | some p =>
          simp only [Option.elim_some]
          split
          · exact childrenShape_reposition s pid
          · rfl
  · norm_num [move_node_up, c4Store, findNode, List.find?, isort, insOrd,
      reposition_siblings, store_subtree_space, subtreeSpaceFuel,
      move_node_and_subtree, moveSubtreeFuel, updateNode, List.findIdx]
  · norm_num [move_node_down, c4Store, findNode, List.find?, isort, insOrd,
      reposition_siblings, store_subtree_space, subtreeSpaceFuel,
      move_node_and_subtree, moveSubtreeFuel, updateNode, List.findIdx]

/-! ### Child creation (`MindMap.create_child_node`, `MindMap._layout_nodes`)
and new-node placement (`MindMap._calculate_node_position`) -/

/-- `MindMap._layout_nodes`: for every node with a parent, reposition that
parent's children (iterating the store snapshot, threading the updated
store). -/
def layoutNodes (s : Store α) : Store α :=
  s.foldl (fun st n => n.parent.elim st (fun pid => reposition_siblings st pid)) s

/-- `MindMap.create_child_node(parent_node, text)`: places the new node at
`(parent.x + 150, parent.y)`, runs `Node.__init__` (whose parent-property
setter appends the fresh node to the parent's children, guarded by
`not in`), inserts it into the node dictionary, then performs the explicit
unconditional `parent_node.children.append(new_node)` of the source, and
finally runs `_layout_nodes`.  The fresh uuid is passed in as `newId`. -/
def create_child_node (s : Store α) (parentId newId : Nat) (text : String) : Store α :=
  (findNode s parentId).elim s (fun p =>
    let newNode : NodeData α :=
      { id := newId, x := p.x + 150, y := p.y, parent := some parentId,
        collapsed := false, children := [], text := text }
    let s1 := updateNode s parentId (fun q =>
      if newId ∈ q.children then q else { q with children := q.children ++ [newId] })
    let s2 := s1 ++ [newNode]
    let s3 := updateNode s2 parentId (fun q => { q with children := q.children ++ [newId] })
    layoutNodes s3)

/-- The side a new root child is placed on (`MindMap.last_side`). -/
inductive Side : Type
  | left
  | right
  deriving DecidableEq, Repr

/-- `MindMap._calculate_node_position(parent_node)` together with the
`last_side` session state it reads and writes: root children alternate
sides (first child right), other nodes inherit the parent's side by
comparing `parent.x` with the grandparent's x; the vertical position is the
parent's y for a first child, otherwise below the last child by at least
the 60-unit sibling gap.  `none` only when a dereference the source does
through live objects fails. -/
def calculate_node_position (s : Store α) (lastSide : Side) (p : NodeData α) :
    Option (α × α × Side) :=
  let xside : Option (α × Side) :=
    p.parent.elim
      (if p.children = [] then some (p.x + 150, Side.right)
       else
         match lastSide with
         | .right => some (p.x - 150, .left)
         | .left => some (p.x + 150, .right))
      (fun gid =>
        (findNode s gid).map (fun g =>
          if p.x < g.x then (p.x - 150, lastSide) else (p.x + 150, lastSide)))
  let ypos : Option α :=
    if p.children = [] then some p.y
    else
      (p.children.getLast?.bind (findNode s)).map (fun lastChild =>
        lastChild.y + max 60 (store_subtree_space s p / (p.children.length + 1)))
  xside.bind (fun xs => ypos.map (fun y => (xs.1, y, xs.2)))

/-- The id-to-x view of a store. -/
def xShape (s : Store α) : List (Nat × α) :=
  s.map (fun n => (n.id, n.x))

omit [LinearOrderedField α] in
theorem findNode_map_proj_of_shape_eq {β : Type} (g : NodeData α → β) :
    ∀ (s s' : Store α),
      s.map (fun n => (n.id, g n)) = s'.map (fun n => (n.id, g n)) →
      ∀ i, (findNode s i).map g = (findNode s' i).map g := by
  intro s
  induction s with
  | nil =>
    intro s' h i
    cases s' with
    | nil => rfl
    | cons b l => simp at h
  | cons a l ih =>
    intro s' h i
    cases s' with
    | nil => simp at h
    | cons b l' =>
      simp only [List.map_cons, List.cons.injEq, Prod.mk.injEq] at h
      obtain ⟨⟨hid, hg⟩, htail⟩ := h
      unfold findNode at *
      by_cases hi : a.id = i
      · have hb : b.id = i := hid ▸ hi
        simp [List.find?_cons, hi, hb, hg]
      · have hb : ¬ b.id = i := fun hb => hi (hid ▸ hb)
        simp only [List.find?_cons]
        rw [show (decide (a.id = i)) = false by simp [hi],
          show (decide (b.id = i)) = false by simp [hb]]
        exact ih l' htail i

theorem xShape_moveSubtreeFuel :
    ∀ (fuel : Nat) (s : Store α) (nid : Nat) (dy : α),
      xShape (moveSubtreeFuel fuel s nid 0 dy) = xShape s := by
  intro fuel
  induction fuel with
  | zero => intro s nid dy; rfl
  | succ f ih =>
    intro s nid dy
    unfold moveSubtreeFuel
    generalize ((findNode s nid).elim [] (fun n => n.children)) = cs
    have hbase :
        xShape (updateNode s nid
          (fun n => { n with x := n.x + 0, y := n.y + dy })) = xShape s := by
      unfold xShape updateNode
      rw [List.map_map]
      apply List.map_congr_left
      intro n _
      by_cases h : n.id = nid
      · simp [Function.comp, if_pos h]
      · simp [Function.comp, if_neg h]
    generalize hU : updateNode s nid (fun n => { n with x := n.x + 0, y := n.y + dy }) = u
    rw [hU] at hbase
    clear hU
    induction cs generalizing u with
    | nil => simpa using hbase
    | cons c cs ihc =>
      simp only [List.foldl_cons]
      exact ihc _ ((ih u c dy).trans hbase)

theorem xShape_reposition (s : Store α) (pid : Nat) :
    xShape (reposition_siblings s pid) = xShape s := by
  unfold reposition_siblings
  cases hp : findNode s pid with
  | none => rfl
  | some p =>
    simp only [Option.elim_some]
    by_cases hc : p.children = []
    · simp [hc]
    · rw [if_neg hc]
      generalize (isort (fun a b => decide (a.y ≤ b.y))
        (p.children.filterMap (findNode s))).zip
          ((isort (fun a b => decide (a.y ≤ b.y))
            (p.children.filterMap (findNode s))).map
              (fun c => store_subtree_space s c)) = pairs
      generalize hstart : p.y - _ / 2 = start
      clear hstart
      suffices h : ∀ (l : List (NodeData α × α)) (acc : Store α × α),
          xShape acc.1 = xShape s →
          xShape ((l.foldl
            (fun (acc : Store α × α) cp =>
              let target := acc.2 + cp.2 / 2
              let cy := (findNode acc.1 cp.1.id).elim cp.1.y (fun m => m.y)
              let dy := target - cy
              let st := if 1 < |dy| then move_node_and_subtree acc.1 cp.1.id 0 dy else acc.1
              (st, acc.2 + cp.2)) acc)).1 = xShape s by
        exact h pairs (s, start) rfl
      intro l
      induction l with
      | nil => intro acc hacc; exact hacc
      | cons cp l ihl =>
        intro acc hacc
        simp only [List.foldl_cons]
        apply ihl
        by_cases hdy : 1 < |acc.2 + cp.2 / 2 -
            ((findNode acc.1 cp.1.id).elim cp.1.y (fun m => m.y))|
        · simpa [hdy] using
            (xShape_moveSubtreeFuel _ acc.1 cp.1.id _).trans hacc
        · simpa [hdy] using hacc

theorem xShape_layoutNodes (s : Store α) : xShape (layoutNodes s) = xShape s := by
  unfold layoutNodes
  suffices h : ∀ (l : Store α) (st : Store α), xShape st = xShape s →
      xShape (l.foldl
        (fun st n => n.parent.elim st (fun pid => reposition_siblings st pid)) st) =
        xShape s by
    exact h s s rfl
  intro l
  induction l with
  | nil => intro st hst; exact hst
  | cons n l ihl =>
    intro st hst
    simp only [List.foldl_cons]
    apply ihl
    cases hp : n.parent with
    | none => simpa using hst
    | some pid =>
      simp only [Option.elim_some]
      exact (xShape_reposition st pid).trans hst

omit [LinearOrderedField α] in
theorem findNode_updateNode (s : Store α) (pid : Nat)
    (f : NodeData α → NodeData α) (hf : ∀ n, (f n).id = n.id) (i : Nat) :
    findNode (updateNode s pid f) i =
      (findNode s i).map (fun n => if n.id = pid then f n else n) := by
  induction s with
  | nil => rfl
  | cons a l ih =>
    unfold findNode updateNode at *
    simp only [List.map_cons, List.find?_cons]
    have hhead : (if a.id = pid then f a else a).id = a.id := by
      by_cases h : a.id = pid <;> simp [h, hf]
    by_cases hi : a.id = i
    · rw [show (decide ((if a.id = pid then f a else a).id = i)) = true from
        decide_eq_true (hhead.trans hi),
        show (decide (a.id = i)) = true from decide_eq_true hi]
      simp
    · rw [show (decide ((if a.id = pid then f a else a).id = i)) = false from
        decide_eq_false (fun hcc => hi (hhead ▸ hcc)),
        show (decide (a.id = i)) = false from decide_eq_false hi]
      exact ih

omit [LinearOrderedField α] in
theorem findNode_append_right (l1 l2 : Store α) (i : Nat)
    (h : ∀ n ∈ l1, n.id ≠ i) :
    findNode (l1 ++ l2) i = findNode l2 i := by
  induction l1 with
  | nil => rfl
  | cons a l ih =>
    unfold findNode at *
    rw [List.cons_append, List.find?_cons,
      show (decide (a.id = i)) = false from
        decide_eq_false (h a (List.mem_cons_self _ _))]
    exact ih (fun n hn => h n (List.mem_cons_of_mem _ hn))

/-- Concrete one-node store (just a root) for the C3 failing input. -/
def c3Store : Store ℚ :=
  [⟨0, 0, 0, none, false, [], "root"⟩]

/-- C3 (code bug): `create_child_node` appends the fresh child to the
parent's children twice — once through the `Node.parent` property setter
and once through the explicit `parent_node.children.append` — so after a
single creation on a fresh map the root's children list is `[1, 1]`, which
has a duplicate. -/
theorem claim_C3 :
    (findNode (create_child_node c3Store 0 1 "a") 0).map (fun n => n.children) =
        some [1, 1] ∧
      ¬ ([1, 1] : List Nat).Nodup := by
  constructor
  · norm_num [create_child_node, c3Store, findNode, List.find?, updateNode,
      layoutNodes, reposition_siblings, store_subtree_space, subtreeSpaceFuel,
      move_node_and_subtree, moveSubtreeFuel, isort, insOrd]
  · decide

/-- Concrete store for the C9 counterexample: root `0` at x = 400 with a
left-side child `1` at x = 250. -/
def c9Store : Store ℚ :=
  [⟨0, 400, 300, none, false, [1], "root"⟩,
   ⟨1, 250, 300, some 0, false, [], "leftbranch"⟩]

/-- C9 counterexample: `create_child_node` on the left-side parent `1`
places the new child at `parent.x + 150 = 400`: the child's offset from its
parent (+150) has the opposite sign of the parent's offset from the
grandparent (−150), so the subtree crosses to the other side, contradicting
the claim for this placement path. -/
theorem claim_C9_counterexample :
    (findNode (create_child_node c9Store 1 2 "c") 2).map (fun n => n.x) = some 400 ∧
      (0 : ℚ) < 400 - 250 ∧ (250 : ℚ) - 400 < 0 := by
  refine ⟨?_, by norm_num, by norm_num⟩
  norm_num [create_child_node, c9Store, findNode, List.find?, updateNode,
    layoutNodes, reposition_siblings, store_subtree_space, subtreeSpaceFuel,
    move_node_and_subtree, moveSubtreeFuel, isort, insOrd]

/-- C9 (amended): the alternating/inheriting placement holds for
`_calculate_node_position` (used by the Tab/Return handlers): a root
parent's first child goes right and `last_side` becomes `right`; with
existing children the side flips away from `last_side`; a non-root parent's
child inherits the parent's side (x−150 when the parent is left of the
grandparent, else x+150) and `last_side` is untouched.  The
`create_child_node` path instead always places the child at
`parent.x + 150`, regardless of side. -/
theorem claim_C9_amended (s : Store ℚ) (ls : Side) (p : NodeData ℚ) :
    (p.parent = none → p.children = [] →
      calculate_node_position s ls p = some (p.x + 150, p.y, Side.right)) ∧
    (p.parent = none → p.children ≠ [] → ∀ x y sd,
      calculate_node_position s Side.right p = some (x, y, sd) →
        x = p.x - 150 ∧ sd = Side.left) ∧
    (p.parent = none → p.children ≠ [] → ∀ x y sd,
      calculate_node_position s Side.left p = some (x, y, sd) →
        x = p.x + 150 ∧ sd = Side.right) ∧
    (∀ gid g, p.parent = some gid → findNode s gid = some g → ∀ x y sd,
      calculate_node_position s ls p = some (x, y, sd) →
        (p.x < g.x → x = p.x - 150) ∧ (¬ p.x < g.x → x = p.x + 150) ∧ sd = ls) ∧
    (∀ (pid nid : Nat) (t : String) (q : NodeData ℚ),
      findNode s pid = some q → nid ∉ s.map (fun n => n.id) →
        (findNode (create_child_node s pid nid t) nid).map (fun n => n.x) =
          some (q.x + 150)) := by
  refine ⟨?_, ?_, ?_, ?_, ?_⟩
  · intro hpar hch
    unfold calculate_node_position
    rw [hpar]
    simp [hch, Option.elim_none]
  · intro hpar hch x y sd h
    unfold calculate_node_position at h
    rw [hpar] at h
    simp only [Option.elim_none, if_neg hch] at h
    obtain ⟨a, hxa, hrest⟩ := Option.bind_eq_some.mp h
    obtain ⟨yv, -, htup⟩ := Option.map_eq_some'.mp hrest
    simp only [Option.some.injEq] at hxa
    simp only [Prod.mk.injEq] at htup
    obtain ⟨hx, -, hsd⟩ := htup
    rw [← hxa] at hx hsd
    exact ⟨by simpa using hx.symm, by simpa using hsd.symm⟩
  · intro hpar hch x y sd h
    unfold calculate_node_position at h
    rw [hpar] at h
    simp only [Option.elim_none, if_neg hch] at h
    obtain ⟨a, hxa, hrest⟩ := Option.bind_eq_some.mp h
    obtain ⟨yv, -, htup⟩ := Option.map_eq_some'.mp hrest
    simp only [Option.some.injEq] at hxa
    simp only [Prod.mk.injEq] at htup
    obtain ⟨hx, -, hsd⟩ := htup
    rw [← hxa] at hx hsd
    exact ⟨by simpa using hx.symm, by simpa using hsd.symm⟩
  · intro gid g hpar hg x y sd h
    unfold calculate_node_position at h
    rw [hpar] at h
    simp only [Option.elim_some] at h
    rw [hg] at h
    simp only [Option.map_some'] at h
    obtain ⟨a, hxa, hrest⟩ := Option.bind_eq_some.mp h
    obtain ⟨yv, -, htup⟩ := Option.map_eq_some'.mp hrest
    simp only [Option.some.injEq] at hxa
    simp only [Prod.mk.injEq] at htup
    obtain ⟨hx, -, hsd⟩ := htup
    by_cases hlt : p.x < g.x
    · rw [if_pos hlt] at hxa
      rw [← hxa] at hx hsd
      exact ⟨fun _ => by simpa using hx.symm, fun hn => absurd hlt hn,
        by simpa using hsd.symm⟩
    · rw [if_neg hlt] at hxa
      rw [← hxa] at hx hsd
      exact ⟨fun hcc => absurd hcc hlt, fun _ => by simpa using hx.symm,
        by simpa using hsd.symm⟩
  · intro pid nid t q hq hfresh
    have hne : nid ≠ pid := by
      intro hcontra
      apply hfresh
      have hmem := mem_of_findNode_eq_some hq
      have hid := id_of_findNode_eq_some hq
      subst hcontra
      exact hid ▸ List.mem_map_of_mem (fun n => n.id) hmem
    unfold create_child_node
    rw [hq]
    simp only [Option.elim_some]
    rw [findNode_map_proj_of_shape_eq (fun n => n.x) _ _ (xShape_layoutNodes _) nid]
    rw [findNode_updateNode _ pid
      (fun q' => { q' with children := q'.children ++ [nid] }) (fun n => rfl) nid]
    rw [findNode_append_right]
    · simp [findNode, hne]
    · intro n hn
      have hin : n.id ∈ s.map (fun m => m.id) := by
        unfold updateNode at hn
        rcases List.mem_map.mp hn with ⟨m, hm, hmeq⟩
        have hsame : n.id = m.id := by
          subst hmeq
          by_cases h : m.id = pid <;> by_cases h2 : nid ∈ m.children <;>
            simp [h, h2]
        rw [hsame]
        exact List.mem_map_of_mem _ hm
      intro hcontra
      rw [hcontra] at hin
      exact hfresh hin

/-- A childless root, for the first-child conjunct of the C9 witness. -/
def c9bStore : Store ℚ :=
  [⟨0, 400, 300, none, false, [], "root"⟩]

/-- C9 amended-claim witness: the first root child is placed to the right
with `last_side` becoming `right`, and `create_child_node` places a fresh
child of the root at `root.x + 150`. -/
theorem claim_C9_witness :
    calculate_node_position c9bStore Side.left ⟨0, 400, 300, none, false, [], "root"⟩ =
        some ((400 : ℚ) + 150, 300, Side.right) ∧
      (findNode (create_child_node c9Store 0 2 "w") 2).map (fun n => n.x) =
        some ((400 : ℚ) + 150) := by
  constructor
  · exact (claim_C9_amended c9bStore Side.left
      ⟨0, 400, 300, none, false, [], "root"⟩).1 rfl rfl
  · exact (claim_C9_amended c9Store Side.left
      ⟨1, 250, 300, some 0, false, [], "leftbranch"⟩).2.2.2.2 0 2 "w"
      ⟨0, 400, 300, none, false, [1], "root"⟩ (by rfl) (by decide)

/-! ### Subtree deletion (`Node.delete`)

The source deletes the children (iterating a copy of the list), removes the
canvas items — destruction, observed here as the order in which nodes are
destroyed — and finally removes the node from its parent's children with
`list.remove` (first occurrence).  Nothing is removed from the
`MindMap.nodes` dictionary, so the store keeps the records. -/

/-- `Node.delete`, fuelled: returns the updated store and the destruction
order (each node is appended when its canvas items are deleted, after all
of its children have been destroyed). -/
def deleteRec : Nat → Store α → Nat → Store α × List Nat
  | 0, s, _ => (s, [])
  | fuel + 1, s, nid =>
    let cs := (findNode s nid).elim [] (fun n => n.children)
    let res := cs.foldl
      (fun (acc : Store α × List Nat) c =>
        let r := deleteRec fuel acc.1 c
        (r.1, acc.2 ++ r.2)) (s, [])
    let s2 := (findNode res.1 nid).elim res.1 (fun n =>
      n.parent.elim res.1 (fun pid =>
        updateNode res.1 pid (fun q => { q with children := q.children.erase nid })))
    (s2, res.2 ++ [nid])

/-- `Node.delete` with enough fuel for any store-deep subtree. -/
def delete_node (s : Store α) (nid : Nat) : Store α × List Nat :=
  deleteRec (s.length + 1) s nid

omit [LinearOrderedField α] in
theorem deleteRec_last (fuel : Nat) (s : Store α) (nid : Nat) :
    ((deleteRec (fuel + 1) s nid).2).getLast? = some nid := by
  unfold deleteRec
  exact List.getLast?_concat _

omit [LinearOrderedField α] in
theorem mem_snd_deleteRec_foldl (fuel : Nat) :
    ∀ (l : List Nat) (acc : Store α × List Nat) (x : Nat),
      (x ∈ acc.2 ∨ x ∈ l) →
      x ∈ (l.foldl
        (fun (acc : Store α × List Nat) c =>
          let r := deleteRec (fuel + 1) acc.1 c
          (r.1, acc.2 ++ r.2)) acc).2 := by
  intro l
  induction l with
  | nil =>
    intro acc x hx
    rcases hx with h | h
    · exact h
    · simp at h
  | cons c l ih =>
    intro acc x hx
    simp only [List.foldl_cons]
    apply ih
    rcases hx with h | h
    · exact Or.inl (List.mem_append_left _ h)
    · rcases List.mem_cons.mp h with h1 | h1
      · subst h1
        refine Or.inl (List.mem_append_right _ ?_)
        have hlast := deleteRec_last fuel acc.1 x
        exact List.mem_of_mem_getLast? (by simp [hlast])
      · exact Or.inr h1

omit [LinearOrderedField α] in
theorem claim_C5_helper_children_first (s : Store α) (nid : Nat)
    (hlen : 0 < s.length) :
    ∀ c ∈ (findNode s nid).elim [] (fun n => n.children),
      c ∈ ((delete_node s nid).2).dropLast := by
  intro c hc
  unfold delete_node deleteRec
  simp only
  rw [List.dropLast_concat]
  obtain ⟨f, hf⟩ : ∃ f, s.length = f + 1 := ⟨s.length - 1, by omega⟩
  rw [hf]
  exact mem_snd_deleteRec_foldl f _ (s, []) c (Or.inr hc)

/-- Concrete chain store for C5: root `0` → `1` → `2`. -/
def c5Store : Store ℚ :=
  [⟨0, 0, 0, none, false, [1], "root"⟩,
   ⟨1, 150, 0, some 0, false, [2], "a"⟩,
   ⟨2, 300, 0, some 1, false, [], "b"⟩]

/-- The store after `delete_node c5Store 1`: every destroyed node has been
removed from its parent's children (the records themselves stay in the
dictionary, as in the source). -/
def c5After : Store ℚ :=
  [⟨0, 0, 0, none, false, [], "root"⟩,
   ⟨1, 150, 0, some 0, false, [], "a"⟩,
   ⟨2, 300, 0, some 1, false, [], "b"⟩]

/-- C5 counterexample: deleting the root is not rejected — there is no
`CannotDeleteRoot` guard anywhere — the whole tree is destroyed, the root
last. -/
theorem claim_C5_counterexample :
    (delete_node c5Store 0).2 = [2, 1, 0] ∧ 0 ∈ (delete_node c5Store 0).2 := by
  constructor
  · rfl
  · rw [show (delete_node c5Store 0).2 = [2, 1, 0] from rfl]
    decide

/-- C5 (amended): `Node.delete` never fails and applies to any node, the
root included.  It destroys the subtree depth-first — the node itself is
destroyed last, and each of its children is destroyed strictly before it —
and detaches the node from its parent's children when a parent exists (the
concrete run on the chain `0 → 1 → 2`, deleting `1`, destroys `2` then `1`
and leaves `0` and `1` with emptied children lists). -/
theorem claim_C5_amended :
    (∀ (s : Store ℚ) (nid : Nat), ((delete_node s nid).2).getLast? = some nid) ∧
    (∀ (s : Store ℚ) (nid : Nat), ∀ c ∈ (findNode s nid).elim [] (fun n => n.children),
      c ∈ ((delete_node s nid).2).dropLast) ∧
    delete_node c5Store 1 = (c5After, [2, 1]) := by
  refine ⟨?_, ?_, rfl⟩
  · intro s nid
    exact deleteRec_last s.length s nid
  · intro s nid c hc
    cases s with
    | nil => simp [findNode, List.find?] at hc
    | cons a l =>
      exact claim_C5_helper_children_first (a :: l) nid (by simp) c hc

end Ops

/-! ### Text-edit completion (`MindMap._finish_editing`) -/

/-- Python's `str.strip()`: drop leading and trailing whitespace. -/
def py_strip (s : String) : String :=
  ⟨((s.data.dropWhile Char.isWhitespace).reverse.dropWhile Char.isWhitespace).reverse⟩

/-- The slice of `MindMap` state that `_finish_editing` touches. -/
structure MMState (α : Type) where
  store : Store α
  editingNode : Option Nat
  textEditor : Option String
  deriving Repr

/-- One `emit_event` call: event name and the `node=`/`text=` payload. -/
structure EmittedEvent where
  name : String
  nodePayload : Option Nat
  textPayload : String
  deriving DecidableEq, Repr

/-- `MindMap._finish_editing`: bail out unless both an editor and an
editing node exist; update the label only when the stripped text is
non-empty; clear the editor and the editing-node reference; then emit
`node_text_changed` with `node=self.editing_node` — read *after* the
clearing, hence always `None`. -/
def finish_editing {α : Type} (m : MMState α) : MMState α × List EmittedEvent :=
  match m.textEditor, m.editingNode with
  | some ed, some en =>
    let newText := py_strip ed
    let store' :=
      if newText ≠ "" then updateNode m.store en (fun n => { n with text := newText })
      else m.store
    let m1 : MMState α := { store := store', editingNode := none, textEditor := none }
    (m1, [{ name := "node_text_changed", nodePayload := m1.editingNode,
            textPayload := newText }])
  | _, _ => (m, [])

/-- C10: whenever a text edit completes (editor and editing node both
present), exactly one `node_text_changed` event is emitted, its node
payload is `none` — the reference was cleared before the emit — and the
event is emitted even when the stripped text is empty, in which case no
label was updated and the store is unchanged. -/
theorem claim_C10 (m : MMState ℚ) (ed : String) (en : Nat)
    (hte : m.textEditor = some ed) (hen : m.editingNode = some en) :
    (finish_editing m).2 =
        [{ name := "node_text_changed", nodePayload := none,
           textPayload := py_strip ed }] ∧
      (py_strip ed = "" → (finish_editing m).1.store = m.store) := by
  obtain ⟨st, eN, tE⟩ := m
  simp only at hte hen
  subst hte
  subst hen
  constructor
  · rfl
  · intro hempty
    simp [finish_editing, hempty]

theorem claim_C10_witness :
    (finish_editing (⟨c3Store, some 0, some "   "⟩ : MMState ℚ)).2 =
        [{ name := "node_text_changed", nodePayload := none,
           textPayload := py_strip "   " }] ∧
      (py_strip "   " = "" →
        (finish_editing (⟨c3Store, some 0, some "   "⟩ : MMState ℚ)).1.store = c3Store) :=
  claim_C10 _ "   " 0 rfl rfl

/-! ### Directional navigation (`MindMap._find_closest_node_in_direction`)

The heuristic computes Euclidean distances, so this model lives over `ℝ`
with `Real.sqrt` standing in for Python's `** 0.5`. -/

end Mindflow
